import Mathlib

/-!
Verification of the transaction-logger core of the kvs repository
(src/main.go, src/postgres_transaction_logger.go), as a shallow embedding.

Machine integers are modelled as Nat with an explicit bound where the Go
code uses a fixed width: the uint64 sequence counter wraps modulo 2^64,
and the byte-sized EventType scanned by the replay parser is bounded by 256.
Strings are List Char.  Channels are collapsed into the lists of values
that cross them, in order; the single writer goroutine and the replay
goroutine become structural recursions over those lists.
-/

/-- ASCII whitespace recognised by Go's fmt scanning (unicode.IsSpace),
restricted to the scalar values that can appear here: space, tab, newline,
vertical tab, form feed, carriage return, NEL and NBSP. -/
def goIsSpace (c : Char) : Bool :=
  c == ' ' || c == '\t' || c == '\n' || c == '\u000B' || c == '\u000C' ||
  c == '\u000D' || c == '\u0085' || c == '\u00A0'

/-- decimal digit test used by Go's %d verb -/
def goIsDigit (c : Char) : Bool :=
  '0' ≤ c && c ≤ '9'

/-- the character for a single decimal digit -/
def digitChar (d : Nat) : Char := Char.ofNat (48 + d)

/-- numeric value of a decimal digit character -/
def digitVal (c : Char) : Nat := c.toNat - 48

/-- value of a big-endian run of decimal digit characters -/
def digitsToNat (ds : List Char) : Nat :=
  ds.foldl (fun a c => 10 * a + digitVal c) 0

/-- worker for natDigits: big-endian digits of n, with enough fuel -/
def natDigitsAux : Nat → Nat → List Char
  | 0, _ => []
  | fuel + 1, n =>
    if n = 0 then [] else natDigitsAux fuel (n / 10) ++ [digitChar (n % 10)]

/-- decimal rendering of a Nat, as Go fmt's %d prints a uint64 -/
def natDigits (n : Nat) : List Char :=
  if n = 0 then ['0'] else natDigitsAux n n

/-- 2^64: bound of Go's uint64 (the Sequence field and the file counter) -/
def uint64Bound : Nat := 2 ^ 64

/-- 2^8: bound of Go's byte (the EventType field) -/
def byteBound : Nat := 256

/-- EventDelete = 1 (iota in the Go const block) -/
def EventDelete : Nat := 1

/-- EventPut = 2 -/
def EventPut : Nat := 2

/-- the Event record of the Go code -/
structure Event where
  Sequence : Nat
  EventType : Nat
  Key : List Char
  Value : List Char
deriving DecidableEq

/-- the zero Event, Go's zero value for the type -/
def zeroEvent : Event := ⟨0, 0, [], []⟩

/-- outcome classes of one fmt verb: input exhausted (io.EOF) versus any
other scanning failure -/
inductive ScanErr
  | eofErr
  | syntaxErr
deriving DecidableEq

/-- drop leading whitespace, as every fmt verb except %c does -/
def skipSpaces (s : List Char) : List Char := s.dropWhile goIsSpace

/-- Go fmt %d scanning into an unsigned integer of the given exclusive
bound: skip spaces, fail with io.EOF on exhausted input, read a maximal
digit run, fail on a non-digit head or on overflow. -/
def scanUint (bound : Nat) (s : List Char) : Except ScanErr (Nat × List Char) :=
  let s1 := skipSpaces s
  if s1.isEmpty then .error .eofErr
  else
    let ds := s1.takeWhile goIsDigit
    if ds.isEmpty then .error .syntaxErr
    else
      let n := digitsToNat ds
      if bound ≤ n then .error .syntaxErr
      else .ok (n, s1.dropWhile goIsDigit)

/-- a run of literal whitespace in a Scanf format string: it must consume
at least one whitespace character or find the end of the input. -/
def scanSpaceRun (s : List Char) : Except ScanErr (List Char) :=
  match s with
  | [] => .ok []
  | c :: _ => if goIsSpace c then .ok (s.dropWhile goIsSpace) else .error .syntaxErr

/-- Go fmt %s scanning: skip spaces, fail with io.EOF on exhausted input,
otherwise take the maximal run of non-space characters. -/
def scanToken (s : List Char) : Except ScanErr (List Char × List Char) :=
  let s1 := skipSpaces s
  if s1.isEmpty then .error .eofErr
  else .ok (s1.takeWhile (fun c => !goIsSpace c), s1.dropWhile (fun c => !goIsSpace c))

/-- fmt.Sscanf(line, "%d\t%d\t%s\t%s", &e.Sequence, &e.EventType, &e.Key,
&e.Value), as used by FileTransactionLogger.ReadEvents: verbs assign the
fields one at a time, so a scan that stops early leaves the later fields
of e unchanged (the loop reuses one Event variable). -/
def sscanfLine (e : Event) (line : List Char) : Event × Option ScanErr :=
  match scanUint uint64Bound line with
  | .error err => (e, some err)
  | .ok (seq, r1) =>
    let e1 : Event := { e with Sequence := seq }
    match scanSpaceRun r1 with
    | .error err => (e1, some err)
    | .ok r2 =>
      match scanUint byteBound r2 with
      | .error err => (e1, some err)
      | .ok (et, r3) =>
        let e2 : Event := { e1 with EventType := et }
        match scanSpaceRun r3 with
        | .error err => (e2, some err)
        | .ok r4 =>
          match scanToken r4 with
          | .error err => (e2, some err)
          | .ok (k, r5) =>
            let e3 : Event := { e2 with Key := k }
            match scanSpaceRun r5 with
            | .error err => (e3, some err)
            | .ok r6 =>
              match scanToken r6 with
              | .error err => (e3, some err)
              | .ok (v, _) => ({ e3 with Value := v }, none)

/-- bufio's dropCR: strip one trailing carriage return from a line -/
def dropCR (l : List Char) : List Char :=
  if l.getLast? = some '\u000D' then l.dropLast else l

/-- worker for splitLines, carrying the current line reversed -/
def splitLinesAux : List Char → List Char → List (List Char)
  | acc, [] => if acc.isEmpty then [] else [dropCR acc.reverse]
  | acc, c :: cs =>
    if c = '\n' then dropCR acc.reverse :: splitLinesAux [] cs
    else splitLinesAux (c :: acc) cs

/-- bufio.Scanner with bufio.ScanLines: split at newlines, strip a
trailing carriage return from each line, and return a final
non-newline-terminated chunk as a line of its own. -/
def splitLines (cs : List Char) : List (List Char) := splitLinesAux [] cs

example : splitLines "a\nb".toList = ["a".toList, "b".toList] := by decide
example : splitLines "a\n".toList = ["a".toList] := by decide
example : splitLines "".toList = [] := by decide
example : splitLines "\n".toList = [[]] := by decide

/-- fatal replay failures of FileTransactionLogger.ReadEvents: a malformed
line, or a sequence number not strictly above the last one seen -/
inductive RErr
  | parseErr
  | outOfSeq
deriving DecidableEq

/-- what the replay goroutine has produced when it ends: the events sent
(in order), the at-most-one error sent, and the final values of the reused
Event variable and of l.lastSequence -/
structure ReadResult where
  events : List Event
  error : Option RErr
  finalE : Event
  finalLast : Nat
deriving DecidableEq

/-- the loop body of FileTransactionLogger.ReadEvents: scan each line into
the one reused Event variable (ignoring io.EOF), error out and stop if the
scan fails otherwise, error out and stop if l.lastSequence >= e.Sequence,
else update l.lastSequence and send the event. -/
def readLoop (e : Event) (last : Nat) : List (List Char) → ReadResult
  | [] => ⟨[], none, e, last⟩
  | line :: rest =>
    let p := sscanfLine e line
    if p.2 = some ScanErr.syntaxErr then ⟨[], some RErr.parseErr, p.1, last⟩
    else if p.1.Sequence ≤ last then ⟨[], some RErr.outOfSeq, p.1, last⟩
    else
      let r := readLoop p.1 p.1.Sequence rest
      ⟨p.1 :: r.events, r.error, r.finalE, r.finalLast⟩

/-- the mutable state of a FileTransactionLogger that the claims observe:
the uint64 sequence counter and the contents of the log file -/
structure FileTransactionLogger where
  lastSequence : Nat
  file : List Char
deriving DecidableEq

/-- the open(2) flag bits that NewFileTranscationLogger passes -/
structure OpenFlags where
  rdwr : Bool
  append : Bool
  create : Bool
  trunc : Bool
deriving DecidableEq

/-- os.O_RDWR|os.O_APPEND|os.O_CREATE, from NewFileTranscationLogger -/
def fileLoggerOpenFlags : OpenFlags :=
  { rdwr := true, append := true, create := true, trunc := false }

/-- os.OpenFile on a file whose current contents are given (none = the
file does not exist): truncation empties it, creation makes it empty when
absent, otherwise the contents are untouched; opening a missing file
without the create flag fails. -/
def openFile (fl : OpenFlags) (existing : Option (List Char)) : Option (List Char) :=
  match existing with
  | some c => some (if fl.trunc then [] else c)
  | none => if fl.create then some [] else none

/-- NewFileTranscationLogger: open the file with O_RDWR|O_APPEND|O_CREATE
and return a logger whose lastSequence starts at the zero value 0 -/
def newFileTranscationLogger (existing : Option (List Char)) :
    Option FileTransactionLogger :=
  (openFile fileLoggerOpenFlags existing).map fun c => ⟨0, c⟩

/-- FileTransactionLogger.ReadEvents, reading the whole file from the
start: returns the events sent, the error sent, and the logger with its
lastSequence counter advanced to the last replayed sequence -/
def readEvents (l : FileTransactionLogger) :
    List Event × Option RErr × FileTransactionLogger :=
  let r := readLoop zeroEvent l.lastSequence (splitLines l.file)
  (r.events, r.error, { l with lastSequence := r.finalLast })

/-- the body (without the trailing newline) of the line that
fmt.Fprintf(l.file, "%d\t%d\t%s\t%s\n", ...) writes -/
def formatBody (seq et : Nat) (key value : List Char) : List Char :=
  natDigits seq ++ '\t' :: (natDigits et ++ '\t' :: (key ++ '\t' :: value))

/-- one full line written by the file writer goroutine -/
def formatLine (seq et : Nat) (key value : List Char) : List Char :=
  formatBody seq et key value ++ ['\n']

/-- the Event that WritePut sends on the events channel -/
def writePut (k v : List Char) : Event :=
  { Sequence := 0, EventType := EventPut, Key := k, Value := v }

/-- the Event that WriteDelete sends on the events channel (its Value is
the zero value, the empty string) -/
def writeDelete (k : List Char) : Event :=
  { Sequence := 0, EventType := EventDelete, Key := k, Value := [] }

/-- a WritePut or WriteDelete call made by a producer -/
inductive WriteCall
  | put (key value : List Char)
  | delete (key : List Char)
deriving DecidableEq

/-- the Event a WriteCall enqueues -/
def callEvent : WriteCall → Event
  | .put k v => writePut k v
  | .delete k => writeDelete k

/-- what the file writer goroutine has done when it stops: the counter,
the file contents, how many errors it sent on the error channel, and the
enqueued events it never consumed -/
structure RunState where
  lastSequence : Nat
  file : List Char
  errorsSent : Nat
  pending : List (Event × Bool)
deriving DecidableEq

/-- the goroutine started by FileTransactionLogger.Run, consuming the
queued events in order, each paired with whether its Fprintf persists:
increment the uint64 counter first, then write the line; on a write error
send the error and return, leaving the rest of the queue unconsumed.  A
failed Fprintf is modelled as appending nothing. -/
def runLoop : Nat → List Char → List (Event × Bool) → RunState
  | seq, f, [] => ⟨seq, f, 0, []⟩
  | seq, f, (e, ok) :: rest =>
    let seq1 := (seq + 1) % uint64Bound
    if ok then
      runLoop seq1 (f ++ formatLine seq1 e.EventType e.Key e.Value) rest
    else
      ⟨seq1, f, 1, rest⟩

/-- what the PostgreSQL writer goroutine has done: the rows inserted (in
order, content only, the sequence being assigned by the database) and the
number of errors sent -/
structure PgRunState where
  inserted : List Event
  errorsSent : Nat
deriving DecidableEq

/-- the goroutine started by PostgresTransactionLogger.Run: consume every
queued event in order; on an insert error send the error and keep looping,
so the whole queue is always consumed. -/
def pgRunLoop : List (Event × Bool) → PgRunState
  | [] => ⟨[], 0⟩
  | (e, ok) :: rest =>
    let st := pgRunLoop rest
    if ok then ⟨e :: st.inserted, st.errorsSent⟩
    else ⟨st.inserted, st.errorsSent + 1⟩

/-- column names and SQL type texts of PostgresTransactionLogger.createTable's
CREATE TABLE transactions statement, in source order -/
def createTableColumns : List (String × String) :=
  [("sequence", "BIGSERIAL PRIMARY KEY"),
   ("type", "BYTE NOT NULL"),
   ("key", "TEXT NOT NULL"),
   ("value", "TEXT")]

/-- column names of the INSERT INTO transactions statement in
PostgresTransactionLogger.Run -/
def insertColumns : List String := ["event_type", "key", "value"]

/-- column names of the SELECT ... FROM transactions statement in
PostgresTransactionLogger.ReadEvents -/
def selectColumns : List String := ["sequence", "event_type", "key", "value"]

/-- the durable state of the relational backend that the claims observe -/
structure PgState where
  hasTable : Bool
  rows : List Event
deriving DecidableEq

/-- PostgresTransactionLogger.verfifyTableExists (SELECT EXISTS ... on
information_schema, a read-only query) -/
def verfifyTableExists (s : PgState) : Bool := s.hasTable

/-- PostgresTransactionLogger.createTable: CREATE TABLE transactions,
yielding an empty table.  The statement's column list is transcribed in
createTableColumns; its validity is settled separately. -/
def createTable (_ : PgState) : PgState :=
  { hasTable := true, rows := [] }

/-- the bootstrap of NewPostgresTransactionLogger after a successful
connection: check whether the table exists and create it only if absent;
no other statement is issued. -/
def newPostgresTransactionLogger (s : PgState) : PgState :=
  if verfifyTableExists s then s else createTable s

/-- the in-memory key-value store of main.go, as the map it holds -/
def Store := List (List Char × List Char)
deriving DecidableEq

/-- store.m[key] = value under the write lock (main.go Put) -/
def storePut (m : Store) (k v : List Char) : Store :=
  (k, v) :: m.filter fun p => !(p.1 == k)

/-- delete(store.m, key) under the write lock (main.go Delete) -/
def storeDelete (m : Store) (k : List Char) : Store :=
  m.filter fun p => !(p.1 == k)

/-- the switch statement of the replay loop in initializeTransactionLog:
Delete(e.Key) on EventDelete, Put(e.Key, e.Value) on EventPut, and nothing
on any other EventType (no default case) -/
def applyEvent (st : Store) (e : Event) : Store :=
  if e.EventType = EventDelete then storeDelete st e.Key
  else if e.EventType = EventPut then storePut st e.Key e.Value
  else st

/-- resolution of the final select race in initializeTransactionLog: once
the replay goroutine has sent its terminal error on the buffered error
channel and closed both channels, the consumer's select finds both cases
ready and Go picks one at random -/
inductive FinalPick
  | errorFirst
  | eventsFirst
deriving DecidableEq

/-- the replay consumer loop of initializeTransactionLog, collapsed over
the deterministic part of the schedule: the events channel is unbuffered,
so every event is received and applied (via the switch) in order before
the terminal error, sent afterwards on the buffered channel, can be seen;
when the producer ends with an error, the consumer's last select races the
pending error against the already-closed events channel, and receiving the
events-channel zero value first makes ok false, ending the loop with err
still nil, so the error is dropped.  Returns the resulting store and the
error that initializeTransactionLog returns (main.go calls log.Fatal on a
non-nil return, so a none return means the store begins serving). -/
def initializeTransactionLog (evs : List Event) (terminal : Option RErr)
    (pick : FinalPick) (st : Store) : Store × Option RErr :=
  let st1 := evs.foldl applyEvent st
  match terminal, pick with
  | some r, FinalPick.errorFirst => (st1, some r)
  | some _, FinalPick.eventsFirst => (st1, none)
  | none, _ => (st1, none)

example :
    (runLoop 0 [] [(writePut "a".toList "1".toList, true)]).file =
      "1\t2\ta\t1\n".toList := by decide

example :
    (readEvents ⟨0, "1\t2\ta\t1\n2\t1\ta\t\n".toList⟩).1 =
      [⟨1, 2, "a".toList, "1".toList⟩, ⟨2, 1, "a".toList, "1".toList⟩] := by
  decide

example :
    (readEvents ⟨0, "1\t2\ta\t1\n1\t1\tb\t\n".toList⟩).1 =
      [⟨1, 2, "a".toList, "1".toList⟩] ∧
    (readEvents ⟨0, "1\t2\ta\t1\n1\t1\tb\t\n".toList⟩).2.1 =
      some RErr.outOfSeq := by decide

example :
    (readEvents ⟨0, "1\t2\ta b\tv\n".toList⟩).1 =
      [⟨1, 2, "a".toList, "b".toList⟩] := by decide

theorem digitVal_digitChar {d : Nat} (h : d < 10) : digitVal (digitChar d) = d := by
  interval_cases d <;> decide

theorem goIsDigit_digitChar {d : Nat} (h : d < 10) : goIsDigit (digitChar d) = true := by
  interval_cases d <;> decide

theorem not_space_of_digit {c : Char} (h : goIsDigit c = true) : goIsSpace c = false := by
  simp only [goIsSpace, Bool.or_eq_true, beq_iff_eq]
  by_contra hc
  simp only [Bool.not_eq_false, Bool.or_eq_true, beq_iff_eq] at hc
  rcases hc with ((((((h1 | h1) | h1) | h1) | h1) | h1) | h1) | h1 <;>
    subst h1 <;> exact absurd h (by decide)

theorem natDigitsAux_mem_digit :
    ∀ (fuel n : Nat) (c : Char), c ∈ natDigitsAux fuel n → goIsDigit c = true := by
  intro fuel
  induction fuel with
  | zero => intro n c hc; simp [natDigitsAux] at hc
  | succ f ih =>
    intro n c hc
    by_cases h0 : n = 0
    · simp [natDigitsAux, h0] at hc
    · simp only [natDigitsAux, h0, if_false, List.mem_append, List.mem_singleton] at hc
      rcases hc with hc | hc
      · exact ih _ _ hc
      · subst hc; exact goIsDigit_digitChar (Nat.mod_lt _ (by omega))

theorem natDigits_mem_digit {n : Nat} {c : Char} (hc : c ∈ natDigits n) :
    goIsDigit c = true := by
  by_cases h0 : n = 0
  · simp [natDigits, h0] at hc; subst hc; decide
  · simp only [natDigits, h0, if_false] at hc
    exact natDigitsAux_mem_digit _ _ _ hc

theorem natDigits_ne_nil (n : Nat) : natDigits n ≠ [] := by
  by_cases h0 : n = 0
  · simp [natDigits, h0]
  · cases n with
    | zero => exact absurd rfl h0
    | succ m =>
      simp [natDigits, natDigitsAux]

theorem digitsToNat_append_one (L : List Char) (c : Char) :
    digitsToNat (L ++ [c]) = 10 * digitsToNat L + digitVal c := by
  simp [digitsToNat, List.foldl_append]

theorem natDigitsAux_toNat :
    ∀ (fuel n : Nat), n ≤ fuel → digitsToNat (natDigitsAux fuel n) = n := by
  intro fuel
  induction fuel with
  | zero => intro n h; interval_cases n; simp [natDigitsAux, digitsToNat]
  | succ f ih =>
    intro n h
    by_cases h0 : n = 0
    · simp [natDigitsAux, h0, digitsToNat]
    · have hdiv : n / 10 ≤ f := by
        have : n / 10 < n := Nat.div_lt_self (by omega) (by omega)
        omega
      simp only [natDigitsAux, h0, if_false, digitsToNat_append_one, ih _ hdiv,
        digitVal_digitChar (Nat.mod_lt n (by omega))]
      omega

theorem digitsToNat_natDigits (n : Nat) : digitsToNat (natDigits n) = n := by
  by_cases h0 : n = 0
  · simp [natDigits, h0]; decide
  · simp only [natDigits, h0, if_false]
    exact natDigitsAux_toNat n n (Nat.le_refl n)

theorem takeWhile_all {p : Char → Bool} :
    ∀ {l : List Char}, (∀ a ∈ l, p a = true) → l.takeWhile p = l := by
  intro l
  induction l with
  | nil => intro _; rfl
  | cons a l ih =>
    intro h
    have ha := h a (List.mem_cons_self a l)
    simp [List.takeWhile, ha, ih fun b hb => h b (List.mem_cons_of_mem _ hb)]

theorem dropWhile_all {p : Char → Bool} :
    ∀ {l : List Char}, (∀ a ∈ l, p a = true) → l.dropWhile p = [] := by
  intro l
  induction l with
  | nil => intro _; rfl
  | cons a l ih =>
    intro h
    have ha := h a (List.mem_cons_self a l)
    simp [List.dropWhile, ha, ih fun b hb => h b (List.mem_cons_of_mem _ hb)]

theorem takeWhile_append_cons {p : Char → Bool} {b : Char} (hb : p b = false) :
    ∀ (A R : List Char), (∀ a ∈ A, p a = true) →
      (A ++ b :: R).takeWhile p = A := by
  intro A
  induction A with
  | nil => intro R _; simp [List.takeWhile, hb]
  | cons a A ih =>
    intro R h
    have ha := h a (List.mem_cons_self a A)
    simp [List.takeWhile, ha, ih R fun x hx => h x (List.mem_cons_of_mem _ hx)]

theorem dropWhile_append_cons {p : Char → Bool} {b : Char} (hb : p b = false) :
    ∀ (A R : List Char), (∀ a ∈ A, p a = true) →
      (A ++ b :: R).dropWhile p = b :: R := by
  intro A
  induction A with
  | nil => intro R _; simp [List.dropWhile, hb]
  | cons a A ih =>
    intro R h
    have ha := h a (List.mem_cons_self a A)
    simp [List.dropWhile, ha, ih R fun x hx => h x (List.mem_cons_of_mem _ hx)]

theorem dropWhile_cons_of_false {p : Char → Bool} {c : Char} (hc : p c = false)
    (l : List Char) : (c :: l).dropWhile p = c :: l := by
  simp [List.dropWhile, hc]

theorem dropWhile_head_false (p : Char → Bool) :
    ∀ l : List Char, l.dropWhile p = [] ∨
      ∃ c r, l.dropWhile p = c :: r ∧ p c = false := by
  intro l
  induction l with
  | nil => exact Or.inl rfl
  | cons a l ih =>
    by_cases ha : p a = true
    · simpa [List.dropWhile, ha] using ih
    · right
      exact ⟨a, l, by simp [List.dropWhile, ha], by simpa using ha⟩

theorem dropCR_append {T : List Char} (hT : T ≠ []) (P : List Char) :
    dropCR (P ++ T) = P ++ dropCR T := by
  unfold dropCR
  rw [List.getLast?_append]
  cases hg : T.getLast? with
  | none => exact absurd (List.getLast?_eq_none_iff.mp hg) hT
  | some t =>
    simp only [Option.or_some]
    by_cases h : t = '\u000D'
    · subst h
      simp only [hg, if_pos rfl]
      cases T with
      | nil => exact absurd rfl hT
      | cons a T2 => simp [List.dropLast_append_cons]
    · simp [h, hg]

theorem splitLinesAux_cons (acc : List Char) (c : Char) (cs : List Char) :
    splitLinesAux acc (c :: cs) =
      if c = '\n' then dropCR acc.reverse :: splitLinesAux [] cs
      else splitLinesAux (c :: acc) cs := rfl

theorem splitLinesAux_append :
    ∀ (F : List Char), F.getLast? = some '\n' →
      ∀ (acc G : List Char),
        splitLinesAux acc (F ++ G) = splitLinesAux acc F ++ splitLinesAux [] G := by
  intro F
  induction F with
  | nil => intro h; simp at h
  | cons c F ih =>
    intro h acc G
    cases F with
    | nil =>
      simp only [List.getLast?_singleton, Option.some.injEq] at h
      subst h
      simp [splitLinesAux_cons, splitLinesAux]
    | cons d F2 =>
      rw [List.getLast?_cons_cons] at h
      rw [List.cons_append, splitLinesAux_cons, splitLinesAux_cons]
      by_cases hc : c = '\n'
      · rw [if_pos hc, if_pos hc, ih h [] G]
        simp
      · rw [if_neg hc, if_neg hc]
        exact ih h (c :: acc) G

theorem splitLinesAux_single :
    ∀ (body acc : List Char), '\n' ∉ body →
      splitLinesAux acc (body ++ ['\n']) = [dropCR (acc.reverse ++ body)] := by
  intro body
  induction body with
  | nil => intro acc _; simp [splitLinesAux_cons, splitLinesAux]
  | cons c body ih =>
    intro acc h
    have hc : ¬ c = '\n' := fun hh => h (hh ▸ List.mem_cons_self c body)
    rw [List.cons_append, splitLinesAux_cons, if_neg hc]
    rw [ih (c :: acc) (fun hh => h (List.mem_cons_of_mem c hh))]
    simp

/-- the file contents made of the given line bodies, each followed by a
newline, as the writer goroutine appends them -/
def joinLines (bs : List (List Char)) : List Char :=
  (bs.map fun b => b ++ ['\n']).flatten

theorem splitLines_joinLines :
    ∀ (bs : List (List Char)), (∀ b ∈ bs, '\n' ∉ b) →
      splitLines (joinLines bs) = bs.map dropCR := by
  intro bs
  induction bs with
  | nil => intro _; rfl
  | cons b bs ih =>
    intro h
    have hb : '\n' ∉ b := h b (List.mem_cons_self b bs)
    have hterm : (b ++ ['\n']).getLast? = some '\n' := by
      rw [List.getLast?_append]
      rfl
    show splitLinesAux [] ((b ++ ['\n']) ++ joinLines bs) = _
    rw [splitLinesAux_append (b ++ ['\n']) hterm [] (joinLines bs)]
    have h1 : splitLinesAux [] (b ++ ['\n']) = [dropCR b] := by
      have := splitLinesAux_single b [] hb
      simpa using this
    rw [h1]
    have h2 := ih fun x hx => h x (List.mem_cons_of_mem b hx)
    simp only [splitLines] at h2
    rw [h2]
    simp

theorem splitLines_append_terminated (f G : List Char)
    (hf : f = [] ∨ f.getLast? = some '\n') :
    splitLines (f ++ G) = splitLines f ++ splitLines G := by
  rcases hf with hf | hf
  · subst hf; simp [splitLines, splitLinesAux]
  · exact splitLinesAux_append f hf [] G

theorem dropWhile_space_natDigits (t : Nat) (X : List Char) :
    (natDigits t ++ X).dropWhile goIsSpace = natDigits t ++ X := by
  cases hN : natDigits t with
  | nil => exact absurd hN (natDigits_ne_nil t)
  | cons c cs =>
    have hc : goIsSpace c = false :=
      not_space_of_digit (natDigits_mem_digit (hN ▸ List.mem_cons_self c cs))
    rw [List.cons_append]
    exact dropWhile_cons_of_false hc _

theorem scanUint_format {b d : Nat} (hd : d < b) (R : List Char) :
    scanUint b (natDigits d ++ '\t' :: R) = .ok (d, '\t' :: R) := by
  have hall : ∀ a ∈ natDigits d, goIsDigit a = true := fun a ha => natDigits_mem_digit ha
  have htab : goIsDigit '\t' = false := by decide
  cases hN : natDigits d with
  | nil => exact absurd hN (natDigits_ne_nil d)
  | cons c cs =>
    have hall2 : ∀ a ∈ c :: cs, goIsDigit a = true := hN ▸ hall
    have hc : goIsSpace c = false :=
      not_space_of_digit (hall2 c (List.mem_cons_self c cs))
    have htake : ((c :: cs) ++ '\t' :: R).takeWhile goIsDigit = c :: cs :=
      takeWhile_append_cons htab (c :: cs) R hall2
    have hdrop : ((c :: cs) ++ '\t' :: R).dropWhile goIsDigit = '\t' :: R :=
      dropWhile_append_cons htab (c :: cs) R hall2
    have hval : digitsToNat (c :: cs) = d := hN ▸ digitsToNat_natDigits d
    have hskip : skipSpaces (c :: (cs ++ '\t' :: R)) = c :: (cs ++ '\t' :: R) :=
      dropWhile_cons_of_false hc _
    rw [List.cons_append] at htake hdrop
    simp only [scanUint, List.cons_append, hskip, htake, hdrop, hval,
      List.isEmpty_cons, Bool.false_eq_true, if_false]
    rw [if_neg (by omega : ¬ b ≤ d)]

theorem scanSpaceRun_tab (R : List Char) :
    scanSpaceRun ('\t' :: R) = .ok (R.dropWhile goIsSpace) := by
  have h : goIsSpace '\t' = true := by decide
  simp [scanSpaceRun, h, List.dropWhile]

theorem scanToken_exact {k : List Char} (hk : k ≠ [])
    (hks : ∀ c ∈ k, goIsSpace c = false) (R : List Char)
    (hR : ∀ c r, R = c :: r → goIsSpace c = true) :
    scanToken (k ++ R) = .ok (k, R) := by
  have hks2 : ∀ c ∈ k, (fun c => !goIsSpace c) c = true := by
    intro c hc; simp [hks c hc]
  cases hK : k with
  | nil => exact absurd hK hk
  | cons c cs =>
    have hks3 : ∀ a ∈ c :: cs, (fun x => !goIsSpace x) a = true := hK ▸ hks2
    have hc : goIsSpace c = false := hks c (hK ▸ List.mem_cons_self c cs)
    cases R with
    | nil =>
      have hskip : skipSpaces (c :: cs) = c :: cs := dropWhile_cons_of_false hc _
      have htake : (c :: cs).takeWhile (fun x => !goIsSpace x) = c :: cs :=
        takeWhile_all hks3
      have hdrop : (c :: cs).dropWhile (fun x => !goIsSpace x) = [] :=
        dropWhile_all hks3
      simp only [scanToken, List.append_nil, hskip, htake, hdrop,
        List.isEmpty_cons, Bool.false_eq_true, if_false]
    | cons b r =>
      have hb : (fun x => !goIsSpace x) b = false := by
        simp [hR b r rfl]
      have hskip : skipSpaces (c :: (cs ++ b :: r)) = c :: (cs ++ b :: r) :=
        dropWhile_cons_of_false hc _
      have htake : ((c :: cs) ++ b :: r).takeWhile (fun x => !goIsSpace x) = c :: cs :=
        takeWhile_append_cons hb (c :: cs) r hks3
      have hdrop : ((c :: cs) ++ b :: r).dropWhile (fun x => !goIsSpace x) = b :: r :=
        dropWhile_append_cons hb (c :: cs) r hks3
      rw [List.cons_append] at htake hdrop
      simp only [scanToken, List.cons_append, hskip, htake, hdrop,
        List.isEmpty_cons, Bool.false_eq_true, if_false]

theorem scanToken_nil : scanToken [] = .error ScanErr.eofErr := rfl

theorem dropWhile_space_keep {k : List Char} (hk : k ≠ [])
    (hks : ∀ c ∈ k, goIsSpace c = false) (X : List Char) :
    (k ++ X).dropWhile goIsSpace = k ++ X := by
  cases hK : k with
  | nil => exact absurd hK hk
  | cons c cs =>
    have hc : goIsSpace c = false := hks c (hK ▸ List.mem_cons_self c cs)
    rw [List.cons_append]
    exact dropWhile_cons_of_false hc _

theorem dropWhile_space_keep_nil {v : List Char} (hv : v ≠ [])
    (hvs : ∀ c ∈ v, goIsSpace c = false) :
    v.dropWhile goIsSpace = v := by
  have := dropWhile_space_keep hv hvs []
  rwa [List.append_nil] at this

theorem scanToken_all {v : List Char} (hv : v ≠ [])
    (hvs : ∀ c ∈ v, goIsSpace c = false) :
    scanToken v = .ok (v, []) := by
  have := scanToken_exact hv hvs [] (by intro c r h; cases h)
  rwa [List.append_nil] at this

theorem sscanfLine_formatted (e : Event) {d t : Nat} (hd : d < uint64Bound)
    (ht : t < byteBound) (tail : List Char) :
    (sscanfLine e (natDigits d ++ '\t' :: (natDigits t ++ '\t' :: tail))).1.Sequence = d ∧
    (sscanfLine e (natDigits d ++ '\t' :: (natDigits t ++ '\t' :: tail))).1.EventType = t ∧
    (sscanfLine e (natDigits d ++ '\t' :: (natDigits t ++ '\t' :: tail))).2 ≠
      some ScanErr.syntaxErr := by
  simp only [sscanfLine, scanUint_format hd, scanSpaceRun_tab,
    dropWhile_space_natDigits, scanUint_format ht]
  rcases dropWhile_head_false goIsSpace tail with h1 | ⟨c, r, h1, hc⟩ <;> rw [h1]
  · simp [scanToken_nil]
  · have hskip : skipSpaces (c :: r) = c :: r := dropWhile_cons_of_false hc _
    simp only [scanToken, hskip, List.isEmpty_cons, Bool.false_eq_true, if_false]
    rcases dropWhile_head_false (fun x => !goIsSpace x) (c :: r) with h2 | ⟨c2, r2, h2, hc2⟩ <;>
      rw [h2]
    · simp [scanSpaceRun, scanToken, skipSpaces, List.dropWhile]
    · have hc2s : goIsSpace c2 = true := by
        simpa using hc2
      simp only [scanSpaceRun, hc2s, if_pos rfl, List.dropWhile, if_true]
      rcases dropWhile_head_false goIsSpace r2 with h3 | ⟨c3, r3, h3, hc3⟩ <;> rw [h3]
      · simp [scanToken, skipSpaces, List.dropWhile]
      · have hskip3 : skipSpaces (c3 :: r3) = c3 :: r3 := dropWhile_cons_of_false hc3 _
        simp only [scanToken, hskip3, List.isEmpty_cons, Bool.false_eq_true, if_false]
        simp

theorem sscanfLine_put (e : Event) {d t : Nat} (hd : d < uint64Bound)
    (ht : t < byteBound) {k v : List Char} (hk : k ≠ [])
    (hks : ∀ c ∈ k, goIsSpace c = false) (hv : v ≠ [])
    (hvs : ∀ c ∈ v, goIsSpace c = false) :
    sscanfLine e (formatBody d t k v) = (⟨d, t, k, v⟩, none) := by
  have htok : scanToken (k ++ '\t' :: v) = .ok (k, '\t' :: v) :=
    scanToken_exact hk hks ('\t' :: v)
      (by intro c r h; cases h; decide)
  simp only [formatBody, sscanfLine, scanUint_format hd, scanSpaceRun_tab,
    dropWhile_space_natDigits, scanUint_format ht,
    dropWhile_space_keep hk hks ('\t' :: v), htok,
    dropWhile_space_keep_nil hv hvs, scanToken_all hv hvs]

theorem sscanfLine_delete (e : Event) {d t : Nat} (hd : d < uint64Bound)
    (ht : t < byteBound) {k : List Char} (hk : k ≠ [])
    (hks : ∀ c ∈ k, goIsSpace c = false) :
    sscanfLine e (formatBody d t k []) = (⟨d, t, k, e.Value⟩, some ScanErr.eofErr) := by
  have htok : scanToken (k ++ '\t' :: ([] : List Char)) = .ok (k, ['\t']) :=
    scanToken_exact hk hks ['\t'] (by intro c r h; cases h; decide)
  simp only [formatBody, sscanfLine, scanUint_format hd, scanSpaceRun_tab,
    dropWhile_space_natDigits, scanUint_format ht,
    dropWhile_space_keep hk hks ('\t' :: ([] : List Char)), htok]
  simp [scanSpaceRun, scanToken, skipSpaces, List.dropWhile]

theorem readLoop_cons_eq (e : Event) (last : Nat) (line : List Char)
    (rest : List (List Char)) :
    readLoop e last (line :: rest) =
      if (sscanfLine e line).2 = some ScanErr.syntaxErr then
        ⟨[], some RErr.parseErr, (sscanfLine e line).1, last⟩
      else if (sscanfLine e line).1.Sequence ≤ last then
        ⟨[], some RErr.outOfSeq, (sscanfLine e line).1, last⟩
      else
        ⟨(sscanfLine e line).1 ::
            (readLoop (sscanfLine e line).1 (sscanfLine e line).1.Sequence rest).events,
          (readLoop (sscanfLine e line).1 (sscanfLine e line).1.Sequence rest).error,
          (readLoop (sscanfLine e line).1 (sscanfLine e line).1.Sequence rest).finalE,
          (readLoop (sscanfLine e line).1 (sscanfLine e line).1.Sequence rest).finalLast⟩ :=
  rfl

theorem readLoop_append :
    ∀ (A : List (List Char)) (e : Event) (last : Nat) (B : List (List Char)),
      (readLoop e last A).error = none →
      readLoop e last (A ++ B) =
        ⟨(readLoop e last A).events ++
            (readLoop (readLoop e last A).finalE (readLoop e last A).finalLast B).events,
          (readLoop (readLoop e last A).finalE (readLoop e last A).finalLast B).error,
          (readLoop (readLoop e last A).finalE (readLoop e last A).finalLast B).finalE,
          (readLoop (readLoop e last A).finalE (readLoop e last A).finalLast B).finalLast⟩ := by
  intro A
  induction A with
  | nil => intro e last B _; rfl
  | cons line A2 ih =>
    intro e last B herr
    rw [readLoop_cons_eq] at herr
    by_cases h1 : (sscanfLine e line).2 = some ScanErr.syntaxErr
    · rw [if_pos h1] at herr; exact absurd herr (by simp)
    · by_cases h2 : (sscanfLine e line).1.Sequence ≤ last
      · rw [if_neg h1, if_pos h2] at herr; exact absurd herr (by simp)
      · rw [if_neg h1, if_neg h2] at herr
        rw [List.cons_append, readLoop_cons_eq, if_neg h1, if_neg h2,
          readLoop_cons_eq, if_neg h1, if_neg h2]
        rw [ih (sscanfLine e line).1 (sscanfLine e line).1.Sequence B herr]
        simp

/-- a line of a well-formed log file, in its parsed constituents -/
structure LogEntry where
  seq : Nat
  et : Nat
  key : List Char
  value : List Char
deriving DecidableEq

/-- the body of the file line carrying a LogEntry -/
def entryBody (q : LogEntry) : List Char := formatBody q.seq q.et q.key q.value

/-- last element of a list of sequence numbers, or the given default -/
def lastOr (d : Nat) : List Nat → Nat
  | [] => d
  | x :: xs => lastOr x xs

theorem dropCR_formatBody (d t : Nat) (k v : List Char) :
    ∃ tail, dropCR (formatBody d t k v) =
      natDigits d ++ '\t' :: (natDigits t ++ '\t' :: tail) := by
  have hT : k ++ '\t' :: v ≠ [] := by cases k <;> simp
  refine ⟨dropCR (k ++ '\t' :: v), ?_⟩
  have hsplit : formatBody d t k v =
      (natDigits d ++ '\t' :: (natDigits t ++ ['\t'])) ++ (k ++ '\t' :: v) := by
    simp [formatBody]
  rw [hsplit, dropCR_append hT]
  simp

theorem sscanfLine_dropCR_formatBody (e : Event) {d t : Nat}
    (hd : d < uint64Bound) (ht : t < byteBound) (k v : List Char) :
    (sscanfLine e (dropCR (formatBody d t k v))).1.Sequence = d ∧
    (sscanfLine e (dropCR (formatBody d t k v))).1.EventType = t ∧
    (sscanfLine e (dropCR (formatBody d t k v))).2 ≠ some ScanErr.syntaxErr := by
  obtain ⟨tail, htail⟩ := dropCR_formatBody d t k v
  rw [htail]
  exact sscanfLine_formatted e hd ht tail

theorem readLoop_entries :
    ∀ (entries : List LogEntry) (e : Event) (l0 : Nat),
      List.Chain (· < ·) l0 (entries.map LogEntry.seq) →
      (∀ q ∈ entries, q.seq < uint64Bound ∧ q.et < byteBound) →
      (readLoop e l0 (entries.map fun q => dropCR (entryBody q))).error = none ∧
      (readLoop e l0 (entries.map fun q => dropCR (entryBody q))).events.map
          (fun ev => (ev.Sequence, ev.EventType)) =
        entries.map (fun q => (q.seq, q.et)) ∧
      (readLoop e l0 (entries.map fun q => dropCR (entryBody q))).finalLast =
        lastOr l0 (entries.map LogEntry.seq) := by
  intro entries
  induction entries with
  | nil => intro e l0 _ _; exact ⟨rfl, rfl, rfl⟩
  | cons q qs ih =>
    intro e l0 hchain hb
    rw [List.map_cons, List.chain_cons] at hchain
    obtain ⟨hlt, hchain2⟩ := hchain
    obtain ⟨hd, ht⟩ := hb q (List.mem_cons_self q qs)
    obtain ⟨hseq0, het0, herr0⟩ :=
      sscanfLine_dropCR_formatBody e hd ht q.key q.value
    have hseq : (sscanfLine e (dropCR (entryBody q))).1.Sequence = q.seq := by
      simp only [entryBody]; exact hseq0
    have het : (sscanfLine e (dropCR (entryBody q))).1.EventType = q.et := by
      simp only [entryBody]; exact het0
    have herr2 : ¬ (sscanfLine e (dropCR (entryBody q))).2 = some ScanErr.syntaxErr := by
      simp only [entryBody]; exact herr0
    have hnotle : ¬ (sscanfLine e (dropCR (entryBody q))).1.Sequence ≤ l0 := by
      rw [hseq]; omega
    rw [List.map_cons, readLoop_cons_eq, if_neg herr2, if_neg hnotle]
    have ih2 := ih (sscanfLine e (dropCR (entryBody q))).1
      (sscanfLine e (dropCR (entryBody q))).1.Sequence
      (by rw [hseq]; exact hchain2)
      (fun p hp => hb p (List.mem_cons_of_mem q hp))
    rw [hseq] at ih2
    rw [hseq]
    exact ⟨ih2.1, by simp [hseq, het, ih2.2.1], ih2.2.2⟩

theorem formatBody_no_newline {d t : Nat} {k v : List Char}
    (hk : '\n' ∉ k) (hv : '\n' ∉ v) : '\n' ∉ formatBody d t k v := by
  intro h
  simp only [formatBody, List.mem_append, List.mem_cons] at h
  rcases h with h | h | h | h | h | h | h
  · exact absurd (natDigits_mem_digit h) (by decide)
  · exact absurd h (by decide)
  · exact absurd (natDigits_mem_digit h) (by decide)
  · exact absurd h (by decide)
  · exact hk h
  · exact absurd h (by decide)
  · exact hv h

/-- the bodies of the lines the writer goroutine appends for the given
events, starting above the given counter value -/
def loggedBodies (s : Nat) : List Event → List (List Char)
  | [] => []
  | e :: rest => formatBody (s + 1) e.EventType e.Key e.Value :: loggedBodies (s + 1) rest

/-- the same lines, as parsed LogEntry values -/
def loggedEntries (s : Nat) : List Event → List LogEntry
  | [] => []
  | e :: rest => ⟨s + 1, e.EventType, e.Key, e.Value⟩ :: loggedEntries (s + 1) rest

/-- the (sequence, type) pairs the claims predict for replayed events -/
def seqTypePairs (s : Nat) : List Event → List (Nat × Nat)
  | [] => []
  | e :: rest => (s + 1, e.EventType) :: seqTypePairs (s + 1) rest

theorem loggedBodies_eq_map :
    ∀ (evs : List Event) (s : Nat),
      loggedBodies s evs = (loggedEntries s evs).map entryBody := by
  intro evs
  induction evs with
  | nil => intro s; rfl
  | cons e rest ih =>
    intro s
    simp [loggedBodies, loggedEntries, entryBody, ih (s + 1)]

theorem loggedEntries_pairs :
    ∀ (evs : List Event) (s : Nat),
      (loggedEntries s evs).map (fun q => (q.seq, q.et)) = seqTypePairs s evs := by
  intro evs
  induction evs with
  | nil => intro s; rfl
  | cons e rest ih =>
    intro s
    simp [loggedEntries, seqTypePairs, ih (s + 1)]

theorem loggedEntries_chain :
    ∀ (evs : List Event) (s : Nat),
      List.Chain (· < ·) s ((loggedEntries s evs).map LogEntry.seq) := by
  intro evs
  induction evs with
  | nil => intro s; exact List.Chain.nil
  | cons e rest ih =>
    intro s
    simp only [loggedEntries, List.map_cons, List.chain_cons]
    exact ⟨by omega, ih (s + 1)⟩

theorem loggedEntries_bounds :
    ∀ (evs : List Event) (s : Nat), s + evs.length < uint64Bound →
      (∀ e ∈ evs, e.EventType < byteBound) →
      ∀ q ∈ loggedEntries s evs, q.seq < uint64Bound ∧ q.et < byteBound := by
  intro evs
  induction evs with
  | nil => intro s _ _ q hq; simp [loggedEntries] at hq
  | cons e rest ih =>
    intro s hs het q hq
    simp only [loggedEntries, List.mem_cons] at hq
    simp only [List.length_cons] at hs
    rcases hq with hq | hq
    · subst hq
      refine ⟨?_, het e (List.mem_cons_self e rest)⟩
      show s + 1 < uint64Bound
      omega
    · exact ih (s + 1) (by omega)
        (fun x hx => het x (List.mem_cons_of_mem e hx)) q hq

theorem loggedEntries_lastOr :
    ∀ (evs : List Event) (s : Nat),
      lastOr s ((loggedEntries s evs).map LogEntry.seq) = s + evs.length := by
  intro evs
  induction evs with
  | nil => intro s; rfl
  | cons e rest ih =>
    intro s
    simp only [loggedEntries, List.map_cons, List.length_cons]
    show lastOr (s + 1) ((loggedEntries (s + 1) rest).map LogEntry.seq) = s + (rest.length + 1)
    rw [ih (s + 1)]
    omega

theorem loggedBodies_no_newline :
    ∀ (evs : List Event) (s : Nat),
      (∀ e ∈ evs, '\n' ∉ e.Key ∧ '\n' ∉ e.Value) →
      ∀ b ∈ loggedBodies s evs, '\n' ∉ b := by
  intro evs
  induction evs with
  | nil => intro s _ b hb; simp [loggedBodies] at hb
  | cons e rest ih =>
    intro s h b hb
    simp only [loggedBodies, List.mem_cons] at hb
    rcases hb with hb | hb
    · subst hb
      obtain ⟨hk, hv⟩ := h e (List.mem_cons_self e rest)
      exact formatBody_no_newline hk hv
    · exact ih (s + 1) (fun x hx => h x (List.mem_cons_of_mem e hx)) b hb

theorem runLoop_cons (seq : Nat) (f : List Char) (e : Event) (ok : Bool)
    (rest : List (Event × Bool)) :
    runLoop seq f ((e, ok) :: rest) =
      if ok then
        runLoop ((seq + 1) % uint64Bound)
          (f ++ formatLine ((seq + 1) % uint64Bound) e.EventType e.Key e.Value) rest
      else ⟨(seq + 1) % uint64Bound, f, 1, rest⟩ := rfl

theorem runLoop_allOk :
    ∀ (evs : List Event) (s : Nat) (f : List Char), s + evs.length < uint64Bound →
      runLoop s f (evs.map fun e => (e, true)) =
        ⟨s + evs.length, f ++ joinLines (loggedBodies s evs), 0, []⟩ := by
  intro evs
  induction evs with
  | nil => intro s f _; simp [runLoop, loggedBodies, joinLines]
  | cons e rest ih =>
    intro s f h
    simp only [List.length_cons] at h
    have hmod : (s + 1) % uint64Bound = s + 1 := Nat.mod_eq_of_lt (by omega)
    have h2 : s + 1 + rest.length < uint64Bound := by omega
    rw [List.map_cons, runLoop_cons, if_pos rfl, hmod,
      ih (s + 1) _ h2]
    have harith : s + 1 + rest.length = s + (rest.length + 1) := by omega
    rw [harith]
    simp [joinLines, loggedBodies, formatLine, List.append_assoc]

theorem joinLines_terminated (bs : List (List Char)) :
    joinLines bs = [] ∨ (joinLines bs).getLast? = some '\n' := by
  induction bs with
  | nil => exact Or.inl rfl
  | cons b bs ih =>
    right
    show ((b ++ ['\n']) ++ joinLines bs).getLast? = some '\n'
    rw [List.getLast?_append]
    rcases ih with h | h
    · rw [h]
      simp only [List.getLast?_nil, Option.none_or]
      rw [List.getLast?_append]
      rfl
    · rw [h]
      rfl

theorem pgRunLoop_closed :
    ∀ evs : List (Event × Bool),
      pgRunLoop evs =
        ⟨(evs.filter fun p => p.2).map Prod.fst,
          (evs.filter fun p => !p.2).length⟩ := by
  intro evs
  induction evs with
  | nil => rfl
  | cons p rest ih =>
    obtain ⟨e, ok⟩ := p
    cases ok <;> simp [pgRunLoop, ih]

theorem map_true_filter (pre : List Event) :
    ((pre.map fun x => (x, true)).filter fun p => p.2) = pre.map (fun x => (x, true)) ∧
    ((pre.map fun x => (x, true)).filter fun p => !p.2) = [] := by
  induction pre with
  | nil => exact ⟨rfl, rfl⟩
  | cons x pre ih => simp [ih.1, ih.2]

theorem runLoop_ok_then_fail :
    ∀ (pre : List Event) (s : Nat) (f : List Char) (e : Event)
      (rest : List (Event × Bool)),
      (runLoop s f ((pre.map fun x => (x, true)) ++ (e, false) :: rest)).pending = rest ∧
      (runLoop s f ((pre.map fun x => (x, true)) ++ (e, false) :: rest)).errorsSent = 1 := by
  intro pre
  induction pre with
  | nil =>
    intro s f e rest
    exact ⟨rfl, rfl⟩
  | cons x pre ih =>
    intro s f e rest
    rw [List.map_cons, List.cons_append, runLoop_cons, if_pos rfl]
    exact ih _ _ e rest

theorem callEvent_et_lt (c : WriteCall) : (callEvent c).EventType < byteBound := by
  cases c with
  | put k v => show EventPut < byteBound; decide
  | delete k => show EventDelete < byteBound; decide

theorem readEvents_eq (l : FileTransactionLogger) :
    readEvents l =
      ((readLoop zeroEvent l.lastSequence (splitLines l.file)).events,
        (readLoop zeroEvent l.lastSequence (splitLines l.file)).error,
        ⟨(readLoop zeroEvent l.lastSequence (splitLines l.file)).finalLast, l.file⟩) :=
  rfl

/-- number of queued events the file writer consumes: everything up to and
including the first failed write, or the whole queue when none fails -/
def consumedCount : List (Event × Bool) → Nat
  | [] => 0
  | (_, ok) :: rest => if ok then 1 + consumedCount rest else 1

theorem consumedCount_cons (e : Event) (ok : Bool) (rest : List (Event × Bool)) :
    consumedCount ((e, ok) :: rest) = if ok then 1 + consumedCount rest else 1 := rfl

theorem runLoop_lastSequence :
    ∀ (evs : List (Event × Bool)) (s : Nat) (f : List Char),
      s + consumedCount evs < uint64Bound →
      (runLoop s f evs).lastSequence = s + consumedCount evs := by
  intro evs
  induction evs with
  | nil => intro s f _; rfl
  | cons p rest ih =>
    intro s f h
    obtain ⟨e, ok⟩ := p
    rw [consumedCount_cons] at h
    rw [consumedCount_cons]
    cases ok with
    | false =>
      simp only [Bool.false_eq_true, if_false] at h ⊢
      rw [runLoop_cons, if_neg (by simp)]
      show (s + 1) % uint64Bound = s + 1
      exact Nat.mod_eq_of_lt (by omega)
    | true =>
      rw [if_pos rfl] at h ⊢
      rw [runLoop_cons, if_pos rfl]
      have hmod : (s + 1) % uint64Bound = s + 1 := Nat.mod_eq_of_lt (by omega)
      rw [hmod, ih (s + 1) _ (by omega)]
      omega

/-- C1 counterexample: the claim fails for the file backend.  With two
enqueued events whose first write fails, the writer goroutine of
FileTransactionLogger.Run sends one error and returns: the second event is
left pending and nothing is ever appended to the file, so the task does
not continue to persist subsequent events. -/
theorem c1_counterexample :
    (runLoop 0 [] [(writePut "a".toList "1".toList, false),
        (writePut "b".toList "2".toList, true)]).pending =
      [(writePut "b".toList "2".toList, true)] ∧
    (runLoop 0 [] [(writePut "a".toList "1".toList, false),
        (writePut "b".toList "2".toList, true)]).file = [] ∧
    (runLoop 0 [] [(writePut "a".toList "1".toList, false),
        (writePut "b".toList "2".toList, true)]).errorsSent = 1 := by
  decide

/-- C1 (amended): after Run(), a failure to persist one dequeued event is
published to the error stream in both backends, but only the relational
writer keeps consuming: for a queue of successful writes followed by one
failure, the PostgreSQL writer loop persists every later successful event
and counts every later failure, while the file writer loop stops at the
first failure, sending exactly one error and leaving the whole rest of the
queue unconsumed. -/
theorem c1_amended_failure_behavior (pre : List Event) (e : Event)
    (rest : List (Event × Bool)) (s : Nat) (f : List Char) :
    (pgRunLoop ((pre.map fun x => (x, true)) ++ (e, false) :: rest)).inserted =
      pre ++ (rest.filter (fun p => p.2)).map Prod.fst ∧
    (pgRunLoop ((pre.map fun x => (x, true)) ++ (e, false) :: rest)).errorsSent =
      1 + (rest.filter (fun p => !p.2)).length ∧
    (runLoop s f ((pre.map fun x => (x, true)) ++ (e, false) :: rest)).pending = rest ∧
    (runLoop s f ((pre.map fun x => (x, true)) ++ (e, false) :: rest)).errorsSent = 1 := by
  refine ⟨?_, ?_, (runLoop_ok_then_fail pre s f e rest).1,
    (runLoop_ok_then_fail pre s f e rest).2⟩
  · rw [pgRunLoop_closed]
    simp [List.filter_append, (map_true_filter pre).1, List.map_map, Function.comp_def]
  · rw [pgRunLoop_closed]
    simp [List.filter_append, (map_true_filter pre).2]
    omega

/-- C2: the relational bootstrap and the writer/replay statements do not
agree on a schema.  createTable declares the type column as BYTE (not
SMALLINT as specified), and both the INSERT of Run and the SELECT of
ReadEvents reference a column event_type that the created table does not
have, so an insert by the writer task cannot succeed against the created
schema, let alone be read back. -/
theorem c2_schema_mismatch :
    ("event_type" ∈ insertColumns ∧ "event_type" ∉ createTableColumns.map Prod.fst) ∧
    ("event_type" ∈ selectColumns ∧ "event_type" ∉ createTableColumns.map Prod.fst) ∧
    (("type", "BYTE NOT NULL") ∈ createTableColumns ∧
      ∀ p ∈ createTableColumns, p.2 ≠ "SMALLINT NOT NULL") ∧
    "type" ∉ insertColumns ∧ "type" ∉ selectColumns := by
  decide

/-- C3 counterexample: a write attempt that fails to persist does advance
the counter.  One enqueued event whose Fprintf fails leaves the file
untouched, yet the lastSequence counter has moved from 0 to 1, because the
writer increments before attempting the write. -/
theorem c3_counterexample :
    (runLoop 0 [] [(writePut "a".toList "1".toList, false)]).lastSequence = 1 ∧
    (runLoop 0 [] [(writePut "a".toList "1".toList, false)]).file = [] := by
  decide

/-- C3 (amended): the file backend counter starts at the zero value 0 at
construction (ReadEvents later raises it to the replayed high-water mark),
and the writer advances it exactly once per consumed queue entry, before
the write is attempted: every event consumed up to and including the first
failed write advances the counter, a failed write included. -/
theorem c3_amended_counter (existing : List Char) (s : Nat) (f : List Char)
    (evs : List (Event × Bool)) (h : s + consumedCount evs < uint64Bound) :
    newFileTranscationLogger (some existing) = some ⟨0, existing⟩ ∧
    (runLoop s f evs).lastSequence = s + consumedCount evs :=
  ⟨rfl, runLoop_lastSequence evs s f h⟩

/-- C3 witness: the amended counter law evaluated at a concrete failing
write. -/
theorem c3_amended_counter_witness :
    newFileTranscationLogger (some "1\t2\ta\t1\n".toList) =
      some ⟨0, "1\t2\ta\t1\n".toList⟩ ∧
    (runLoop 1 "1\t2\ta\t1\n".toList
        [(writePut "b".toList "2".toList, true),
          (writePut "c".toList "3".toList, false)]).lastSequence =
      1 + consumedCount [(writePut "b".toList "2".toList, true),
          (writePut "c".toList "3".toList, false)] :=
  c3_amended_counter "1\t2\ta\t1\n".toList 1 "1\t2\ta\t1\n".toList
    [(writePut "b".toList "2".toList, true),
      (writePut "c".toList "3".toList, false)] (by decide)

/-- C6 counterexample: a replay error can be dropped.  For a log whose
second line is malformed, ReadEvents delivers one event and a ParseError;
when the consumer's final select receives from the already-closed event
channel before the buffered error (the eventsFirst resolution of the
race), initializeTransactionLog returns nil, so main does not call
log.Fatal and the store begins serving despite the replay error. -/
theorem c6_counterexample :
    (readEvents ⟨0, "1\t2\ta\t1\nx\n".toList⟩).2.1 = some RErr.parseErr ∧
    (initializeTransactionLog (readEvents ⟨0, "1\t2\ta\t1\nx\n".toList⟩).1
        (readEvents ⟨0, "1\t2\ta\t1\nx\n".toList⟩).2.1
        FinalPick.eventsFirst ([] : Store)).2 = none := by
  decide

/-- C6 (amended): the replay consumer applies every received event to the
store in order — Put(key, value) on a Put event, Delete(key) on a Delete
event — and the first error received terminates replay with that error
returned (hence fatal in main) provided the final select receives the
pending error rather than the simultaneously closed event channel; under
the other resolution of that race the error is dropped and the store
begins serving. -/
theorem c6_amended_replay (evs : List Event) (terminal : Option RErr)
    (pick : FinalPick) (st : Store) (sq : Nat) (k v : List Char) :
    (initializeTransactionLog evs terminal pick st).1 = evs.foldl applyEvent st ∧
    (initializeTransactionLog evs terminal FinalPick.errorFirst st).2 = terminal ∧
    applyEvent st ⟨sq, EventPut, k, v⟩ = storePut st k v ∧
    applyEvent st ⟨sq, EventDelete, k, v⟩ = storeDelete st k := by
  refine ⟨?_, ?_, ?_, ?_⟩
  · cases terminal <;> cases pick <;> rfl
  · cases terminal <;> rfl
  · simp [applyEvent, EventPut, EventDelete]
  · simp [applyEvent, EventDelete]

/-- C7: round-trip for the file backend.  Writing Put("a","1") on a fresh
log and draining it, a fresh replay yields the single event
(sequence 1, Put, "a", "1"); writing Delete("a") afterwards with the
writer counter carried forward, a fresh replay yields a second event with
kind Delete, key "a" and sequence 2 = 1 + 1. -/
theorem c7_round_trip :
    (readEvents ⟨0, (runLoop 0 [] [(writePut "a".toList "1".toList, true)]).file⟩).1 =
      [⟨1, EventPut, "a".toList, "1".toList⟩] ∧
    (readEvents ⟨0, (runLoop
        (runLoop 0 [] [(writePut "a".toList "1".toList, true)]).lastSequence
        (runLoop 0 [] [(writePut "a".toList "1".toList, true)]).file
        [(writeDelete "a".toList, true)]).file⟩).1.map
        (fun ev => (ev.Sequence, ev.EventType, ev.Key)) =
      [(1, EventPut, "a".toList), (2, EventDelete, "a".toList)] := by
  decide

/-- C8: constructing a logger against an existing backend leaves the
durable data unchanged.  The file is opened with append and create and
without truncate, so existing contents are preserved and a repeated
construction yields the same logger; the relational bootstrap is the
identity whenever the table already exists, and running it twice equals
running it once, with the table present afterwards. -/
theorem c8_idempotent_bootstrap (c : List Char) (s t0 : PgState)
    (h : s.hasTable = true) :
    fileLoggerOpenFlags.trunc = false ∧
    newFileTranscationLogger (some c) = some ⟨0, c⟩ ∧
    newPostgresTransactionLogger s = s ∧
    newPostgresTransactionLogger (newPostgresTransactionLogger t0) =
      newPostgresTransactionLogger t0 ∧
    (newPostgresTransactionLogger t0).hasTable = true := by
  refine ⟨rfl, rfl, ?_, ?_, ?_⟩
  · simp [newPostgresTransactionLogger, verfifyTableExists, h]
  · by_cases h0 : t0.hasTable <;>
      simp [newPostgresTransactionLogger, verfifyTableExists, createTable, h0]
  · by_cases h0 : t0.hasTable <;>
      simp [newPostgresTransactionLogger, verfifyTableExists, createTable, h0]

/-- C8 witness: the bootstrap frame evaluated at concrete states, with an
existing file of one record and an existing table of one row. -/
theorem c8_idempotent_bootstrap_witness :
    fileLoggerOpenFlags.trunc = false ∧
    newFileTranscationLogger (some "1\t2\ta\t1\n".toList) =
      some ⟨0, "1\t2\ta\t1\n".toList⟩ ∧
    newPostgresTransactionLogger ⟨true, [⟨1, 2, "a".toList, "1".toList⟩]⟩ =
      ⟨true, [⟨1, 2, "a".toList, "1".toList⟩]⟩ ∧
    newPostgresTransactionLogger (newPostgresTransactionLogger ⟨false, []⟩) =
      newPostgresTransactionLogger ⟨false, []⟩ ∧
    (newPostgresTransactionLogger ⟨false, []⟩).hasTable = true :=
  c8_idempotent_bootstrap "1\t2\ta\t1\n".toList
    ⟨true, [⟨1, 2, "a".toList, "1".toList⟩]⟩ ⟨false, []⟩ rfl

/-- C10: a key containing whitespace breaks the file round-trip.  Writing
Put("a b","v") and draining it, the replay parser splits the line at
whitespace: the replayed event has Key "a" and Value "b", neither equal to
what was written, even though the write itself was fully persisted. -/
theorem c10_whitespace_round_trip :
    (runLoop 0 [] [(writePut "a b".toList "v".toList, true)]).pending = [] ∧
    (runLoop 0 [] [(writePut "a b".toList "v".toList, true)]).errorsSent = 0 ∧
    (readEvents ⟨0, (runLoop 0 [] [(writePut "a b".toList "v".toList, true)]).file⟩).1 =
      [⟨1, EventPut, "a".toList, "b".toList⟩] ∧
    "a".toList ≠ "a b".toList ∧ "b".toList ≠ "v".toList := by
  decide

/-- C5: corruption detection.  For a file made of well-formed lines whose
sequences strictly increase, followed by one line whose sequence is less
than or equal to the last good one, and then arbitrary further contents,
replay emits exactly the events of the good lines, then exactly one
out-of-sequence error, and stops: neither the violating line nor anything
after it produces an event. -/
theorem c5_corruption_detection (good : List LogEntry) (bad : LogEntry)
    (suffix : List Char)
    (hchain : List.Chain (· < ·) 0 (good.map LogEntry.seq))
    (hb : ∀ q ∈ good, q.seq < uint64Bound ∧ q.et < byteBound)
    (hnl : ∀ q ∈ good, '\n' ∉ q.key ∧ '\n' ∉ q.value)
    (hbnl : '\n' ∉ bad.key ∧ '\n' ∉ bad.value)
    (hbad1 : bad.seq < uint64Bound) (hbad2 : bad.et < byteBound)
    (hviol : bad.seq ≤ lastOr 0 (good.map LogEntry.seq)) :
    (readEvents ⟨0, joinLines (good.map entryBody ++ [entryBody bad]) ++ suffix⟩).1.map
        (fun ev => (ev.Sequence, ev.EventType)) =
      good.map (fun q => (q.seq, q.et)) ∧
    (readEvents ⟨0, joinLines (good.map entryBody ++ [entryBody bad]) ++ suffix⟩).2.1 =
      some RErr.outOfSeq := by
  have hbodies : ∀ b ∈ good.map entryBody ++ [entryBody bad], '\n' ∉ b := by
    intro b hb2
    rcases List.mem_append.mp hb2 with h | h
    · obtain ⟨q, hq, rfl⟩ := List.mem_map.mp h
      exact formatBody_no_newline (hnl q hq).1 (hnl q hq).2
    · rw [List.mem_singleton] at h
      subst h
      exact formatBody_no_newline hbnl.1 hbnl.2
  have hsplit : splitLines (joinLines (good.map entryBody ++ [entryBody bad]) ++ suffix) =
      (good.map fun q => dropCR (entryBody q)) ++
        (dropCR (entryBody bad) :: splitLines suffix) := by
    rw [splitLines_append_terminated _ suffix (joinLines_terminated _),
      splitLines_joinLines _ hbodies]
    simp [List.map_map, Function.comp_def]
  obtain ⟨herr, hmap, hlast⟩ := readLoop_entries good zeroEvent 0 hchain hb
  have hE := sscanfLine_dropCR_formatBody
    (readLoop zeroEvent 0 (good.map fun q => dropCR (entryBody q))).finalE
    hbad1 hbad2 bad.key bad.value
  have hbseq : (sscanfLine
      (readLoop zeroEvent 0 (good.map fun q => dropCR (entryBody q))).finalE
      (dropCR (entryBody bad))).1.Sequence = bad.seq := by
    simp only [entryBody]; exact hE.1
  have hberr : ¬ (sscanfLine
      (readLoop zeroEvent 0 (good.map fun q => dropCR (entryBody q))).finalE
      (dropCR (entryBody bad))).2 = some ScanErr.syntaxErr := by
    simp only [entryBody]; exact hE.2.2
  have hle : (sscanfLine
      (readLoop zeroEvent 0 (good.map fun q => dropCR (entryBody q))).finalE
      (dropCR (entryBody bad))).1.Sequence ≤
      (readLoop zeroEvent 0 (good.map fun q => dropCR (entryBody q))).finalLast := by
    rw [hbseq, hlast]; exact hviol
  simp only [readEvents_eq]
  rw [hsplit, readLoop_append _ zeroEvent 0 _ herr, readLoop_cons_eq,
    if_neg hberr, if_pos hle]
  constructor
  · simp only [List.append_nil]
    exact hmap
  · rfl

/-- C5 witness: a two-line log "1 2 a 1" then "1 1 b" replays as one event
and one out-of-sequence error. -/
theorem c5_corruption_detection_witness :
    (readEvents ⟨0, joinLines ([⟨1, 2, "a".toList, "1".toList⟩].map entryBody ++
        [entryBody ⟨1, 1, "b".toList, []⟩]) ++ []⟩).1.map
        (fun ev => (ev.Sequence, ev.EventType)) =
      ([⟨1, 2, "a".toList, "1".toList⟩] : List LogEntry).map (fun q => (q.seq, q.et)) ∧
    (readEvents ⟨0, joinLines ([⟨1, 2, "a".toList, "1".toList⟩].map entryBody ++
        [entryBody ⟨1, 1, "b".toList, []⟩]) ++ []⟩).2.1 = some RErr.outOfSeq :=
  c5_corruption_detection [⟨1, 2, "a".toList, "1".toList⟩] ⟨1, 1, "b".toList, []⟩ []
    (List.Chain.cons (by decide) List.Chain.nil)
    (by decide) (by decide) (by decide) (by decide) (by decide) (by decide)

/-- C9: stale Value on Delete lines.  For a log of well-formed lines ending
in a Put line followed by a Delete line (written, as the writer does, with
an empty value field), replay succeeds but emits the Delete event with its
Value equal to the value of the preceding Put event instead of the empty
string: the scan of the Delete line fills only three fields, its io.EOF is
ignored, and the reused Event variable keeps the stale Value. -/
theorem c9_stale_delete_value (pre : List (List Char)) (s1 s2 : Nat)
    (k1 v1 k2 : List Char)
    (hclean : (readLoop zeroEvent 0 pre).error = none)
    (hs1 : (readLoop zeroEvent 0 pre).finalLast < s1) (hs12 : s1 < s2)
    (hb1 : s1 < uint64Bound) (hb2 : s2 < uint64Bound)
    (hk1 : k1 ≠ []) (hk1s : ∀ c ∈ k1, goIsSpace c = false)
    (hv1 : v1 ≠ []) (hv1s : ∀ c ∈ v1, goIsSpace c = false)
    (hk2 : k2 ≠ []) (hk2s : ∀ c ∈ k2, goIsSpace c = false) :
    (readLoop zeroEvent 0 (pre ++ [formatBody s1 EventPut k1 v1,
        formatBody s2 EventDelete k2 []])).events =
      (readLoop zeroEvent 0 pre).events ++
        [⟨s1, EventPut, k1, v1⟩, ⟨s2, EventDelete, k2, v1⟩] ∧
    (readLoop zeroEvent 0 (pre ++ [formatBody s1 EventPut k1 v1,
        formatBody s2 EventDelete k2 []])).error = none ∧
    v1 ≠ [] := by
  have hput := sscanfLine_put (readLoop zeroEvent 0 pre).finalE hb1
    (show EventPut < byteBound by decide) hk1 hk1s hv1 hv1s
  have hdel := sscanfLine_delete (⟨s1, EventPut, k1, v1⟩ : Event) hb2
    (show EventDelete < byteBound by decide) hk2 hk2s
  rw [readLoop_append pre zeroEvent 0 _ hclean, readLoop_cons_eq, hput]
  rw [if_neg (by simp), if_neg (by simpa using Nat.not_le.mpr hs1)]
  rw [readLoop_cons_eq, hdel]
  rw [if_neg (by simp), if_neg (by simpa using Nat.not_le.mpr hs12)]
  exact ⟨by simp [readLoop], rfl, hv1⟩

/-- C9 witness: the stale-value law at the concrete two-line log
Put("a","1") then Delete("a"): the Delete event replays with Value "1". -/
theorem c9_stale_delete_value_witness :
    (readLoop zeroEvent 0 ([] ++ [formatBody 1 EventPut "a".toList "1".toList,
        formatBody 2 EventDelete "a".toList []])).events =
      (readLoop zeroEvent 0 []).events ++
        [⟨1, EventPut, "a".toList, "1".toList⟩,
          ⟨2, EventDelete, "a".toList, "1".toList⟩] ∧
    (readLoop zeroEvent 0 ([] ++ [formatBody 1 EventPut "a".toList "1".toList,
        formatBody 2 EventDelete "a".toList []])).error = none ∧
    "1".toList ≠ ([] : List Char) :=
  c9_stale_delete_value [] 1 2 "a".toList "1".toList "a".toList
    (by decide) (by decide) (by decide) (by decide) (by decide)
    (by decide) (by decide) (by decide) (by decide) (by decide) (by decide)

/-- C4 counterexample: one WritePut whose value contains a newline is
fully drained with no write error, yet a fresh replay yields two events
rather than exactly one, because the single Fprintf emitted two physical
lines and the second also parses as a well-formed event. -/
theorem c4_counterexample :
    (runLoop 0 [] [(callEvent (WriteCall.put "a".toList "x\n5\t2\tb\tc".toList),
        true)]).pending = [] ∧
    (runLoop 0 [] [(callEvent (WriteCall.put "a".toList "x\n5\t2\tb\tc".toList),
        true)]).errorsSent = 0 ∧
    (readEvents ⟨0, (runLoop 0 []
        [(callEvent (WriteCall.put "a".toList "x\n5\t2\tb\tc".toList),
          true)]).file⟩).1.length = 2 ∧
    (readEvents ⟨0, (runLoop 0 []
        [(callEvent (WriteCall.put "a".toList "x\n5\t2\tb\tc".toList),
          true)]).file⟩).2.1 = none := by
  decide

/-- C4 (amended): order preservation holds for newline-free keys and
values.  Starting from a log whose replay is clean with high-water mark h,
draining N WritePut/WriteDelete calls whose keys and values contain no
newline (every write persisting) consumes the whole queue with no error,
and a fresh replay of the resulting file yields the prior events followed
by exactly N further events, in enqueue order, with sequence numbers
h + 1, h + 2, ..., h + N. -/
theorem c4_amended_order (oldFile : List Char) (calls : List WriteCall)
    (hterm : oldFile = [] ∨ oldFile.getLast? = some '\n')
    (hclean : (readLoop zeroEvent 0 (splitLines oldFile)).error = none)
    (hnl : ∀ e ∈ calls.map callEvent, '\n' ∉ e.Key ∧ '\n' ∉ e.Value)
    (hbound : (readLoop zeroEvent 0 (splitLines oldFile)).finalLast + calls.length <
      uint64Bound) :
    (runLoop (readEvents ⟨0, oldFile⟩).2.2.lastSequence oldFile
        ((calls.map callEvent).map fun e => (e, true))).pending = [] ∧
    (runLoop (readEvents ⟨0, oldFile⟩).2.2.lastSequence oldFile
        ((calls.map callEvent).map fun e => (e, true))).errorsSent = 0 ∧
    (readEvents ⟨0, (runLoop (readEvents ⟨0, oldFile⟩).2.2.lastSequence oldFile
        ((calls.map callEvent).map fun e => (e, true))).file⟩).2.1 = none ∧
    (readEvents ⟨0, (runLoop (readEvents ⟨0, oldFile⟩).2.2.lastSequence oldFile
        ((calls.map callEvent).map fun e => (e, true))).file⟩).1.map
        (fun ev => (ev.Sequence, ev.EventType)) =
      (readEvents ⟨0, oldFile⟩).1.map (fun ev => (ev.Sequence, ev.EventType)) ++
        seqTypePairs (readEvents ⟨0, oldFile⟩).2.2.lastSequence (calls.map callEvent) := by
  have hlen : (calls.map callEvent).length = calls.length := List.length_map calls callEvent
  have hrun := runLoop_allOk (calls.map callEvent)
    (readLoop zeroEvent 0 (splitLines oldFile)).finalLast oldFile
    (by rw [hlen]; exact hbound)
  have hnl2 : ∀ b ∈ loggedBodies (readLoop zeroEvent 0 (splitLines oldFile)).finalLast
      (calls.map callEvent), '\n' ∉ b :=
    loggedBodies_no_newline (calls.map callEvent) _ hnl
  have hets : ∀ e ∈ calls.map callEvent, e.EventType < byteBound := by
    intro e he
    obtain ⟨c, _, rfl⟩ := List.mem_map.mp he
    exact callEvent_et_lt c
  have hsplit : splitLines (oldFile ++
      joinLines (loggedBodies (readLoop zeroEvent 0 (splitLines oldFile)).finalLast
        (calls.map callEvent))) =
      splitLines oldFile ++
        ((loggedEntries (readLoop zeroEvent 0 (splitLines oldFile)).finalLast
          (calls.map callEvent)).map fun q => dropCR (entryBody q)) := by
    rw [splitLines_append_terminated oldFile _ hterm, splitLines_joinLines _ hnl2,
      loggedBodies_eq_map]
    simp [List.map_map, Function.comp_def]
  obtain ⟨herr2, hmap2, _⟩ := readLoop_entries
    (loggedEntries (readLoop zeroEvent 0 (splitLines oldFile)).finalLast
      (calls.map callEvent))
    (readLoop zeroEvent 0 (splitLines oldFile)).finalE
    (readLoop zeroEvent 0 (splitLines oldFile)).finalLast
    (loggedEntries_chain (calls.map callEvent) _)
    (loggedEntries_bounds (calls.map callEvent) _ (by rw [hlen]; exact hbound) hets)
  simp only [readEvents_eq]
  rw [hrun]
  refine ⟨rfl, rfl, ?_, ?_⟩
  · show (readLoop zeroEvent 0 (splitLines (oldFile ++ _))).error = none
    rw [hsplit, readLoop_append _ zeroEvent 0 _ hclean]
    exact herr2
  · show (readLoop zeroEvent 0 (splitLines (oldFile ++ _))).events.map _ = _
    rw [hsplit, readLoop_append _ zeroEvent 0 _ hclean]
    rw [List.map_append, hmap2, loggedEntries_pairs]

/-- C4 witness: the amended order-preservation law evaluated on a fresh
empty log and the two calls Put("a","1"), Delete("a"). -/
theorem c4_amended_order_witness :
    (runLoop (readEvents ⟨0, []⟩).2.2.lastSequence []
        (([WriteCall.put "a".toList "1".toList,
            WriteCall.delete "a".toList].map callEvent).map fun e => (e, true))).pending =
      [] ∧
    (runLoop (readEvents ⟨0, []⟩).2.2.lastSequence []
        (([WriteCall.put "a".toList "1".toList,
            WriteCall.delete "a".toList].map callEvent).map fun e => (e, true))).errorsSent =
      0 ∧
    (readEvents ⟨0, (runLoop (readEvents ⟨0, []⟩).2.2.lastSequence []
        (([WriteCall.put "a".toList "1".toList,
            WriteCall.delete "a".toList].map callEvent).map
          fun e => (e, true))).file⟩).2.1 = none ∧
    (readEvents ⟨0, (runLoop (readEvents ⟨0, []⟩).2.2.lastSequence []
        (([WriteCall.put "a".toList "1".toList,
            WriteCall.delete "a".toList].map callEvent).map
          fun e => (e, true))).file⟩).1.map
        (fun ev => (ev.Sequence, ev.EventType)) =
      (readEvents ⟨0, []⟩).1.map (fun ev => (ev.Sequence, ev.EventType)) ++
        seqTypePairs (readEvents ⟨0, []⟩).2.2.lastSequence
          ([WriteCall.put "a".toList "1".toList,
            WriteCall.delete "a".toList].map callEvent) :=
  c4_amended_order []
    [WriteCall.put "a".toList "1".toList, WriteCall.delete "a".toList]
    (Or.inl rfl) (by decide) (by decide) (by decide)
